import Mathlib

/-!
Verification of the Fingcomms group-directory core (src/main.py, src/database.py).

The Python core is shallowly embedded: strings become `List Char`, the float
scores of the fuzzy matcher become `ℚ`, wall-clock `datetime` values become
integer seconds (`Nat`), the `lockout_data` dict becomes an association list,
and the `admin_tokens` set becomes a list used only through membership.
Nondeterministic token generation (`secrets.token_hex`) is made explicit by
passing the drawn random bytes as an argument.
-/

/-! ## Edit-distance engine (src/main.py, `levenshtein_distance`, lines 109-132)

`lev` is the textbook recursive specification of Levenshtein distance; the
embedded code is the dynamic-programming row reduction of the source, proved
equal to `lev` below. -/

/-- Textbook recursive Levenshtein distance, used as the mathematical
specification of the row-based program. -/
def lev : List Char → List Char → Nat
  | [], ys => ys.length
  | x :: xs, [] => (x :: xs).length
  | x :: xs, y :: ys =>
      min (lev xs (y :: ys) + 1)
        (min (lev (x :: xs) ys + 1) (lev xs ys + (if x = y then 0 else 1)))
termination_by xs ys => xs.length + ys.length
decreasing_by
  all_goals simp
  all_goals omega

theorem lev_nil_right (xs : List Char) : lev xs [] = xs.length := by
  cases xs <;> simp [lev]

theorem lev_comm (xs ys : List Char) : lev xs ys = lev ys xs := by
  induction xs, ys using lev.induct with
  | case1 ys => rw [lev_nil_right]; cases ys <;> simp [lev]
  | case2 x xs => rw [lev_nil_right]; simp [lev]
  | case3 x xs y ys ih1 ih2 ih3 =>
    rw [show lev (x :: xs) (y :: ys) =
      min (lev xs (y :: ys) + 1)
        (min (lev (x :: xs) ys + 1) (lev xs ys + (if x = y then 0 else 1))) from by rw [lev],
      show lev (y :: ys) (x :: xs) =
      min (lev ys (x :: xs) + 1)
        (min (lev (y :: ys) xs + 1) (lev ys xs + (if y = x then 0 else 1))) from by rw [lev]]
    rw [ih1, ih2, ih3]
    have : (if x = y then 0 else 1) = (if y = x then 0 else 1) := by
      by_cases h : x = y <;> simp [h, eq_comm]
    rw [this]
    omega

theorem lev_self (xs : List Char) : lev xs xs = 0 := by
  induction xs with
  | nil => simp [lev]
  | cons x xs ih => simp [lev, ih]

/-- One step of the inner loop of `levenshtein_distance`: given the previous
DP row (aligned with the remaining characters of `s2`) and the last value
appended to the current row, produce the rest of the current row.  This is the
`for j, c2 in enumerate(s2)` loop of the source. -/
def rowStep (c1 : Char) : List Char → List Nat → Nat → List Nat
  | [], _, _ => []
  | _ :: _, [], _ => []
  | c2 :: s2', pj :: prev', last =>
      let insertions := prev'.headD 0 + 1
      let deletions := last + 1
      let substitutions := pj + (if c1 = c2 then 0 else 1)
      let cell := min insertions (min deletions substitutions)
      cell :: rowStep c1 s2' prev' cell

/-- The outer loop of `levenshtein_distance`: fold the rows over the
characters of `s1`, carrying the previous row and the row index
(`for i, c1 in enumerate(s1)` in the source). -/
def levLoop (s2 : List Char) : List Char → List Nat → Nat → List Nat
  | [], prev, _ => prev
  | c1 :: s1', prev, i => levLoop s2 s1' ((i + 1) :: rowStep c1 s2 prev (i + 1)) (i + 1)

/-- Body of `levenshtein_distance` for the case `len(s1) >= len(s2)`:
the base case `len(s2) == 0` and the row reduction returning
`previous_row[-1]`. -/
def levRaw (s1 s2 : List Char) : Nat :=
  if s2.length = 0 then s1.length
  else (levLoop s2 s1 (List.range (s2.length + 1)) 0).getLastD 0

/-- `levenshtein_distance` of src/main.py lines 109-132.  The source's single
self-call `if len(s1) < len(s2): return levenshtein_distance(s2, s1)` is
inlined as a swap of the arguments (after the swap the guard is false, so the
recursion immediately takes the non-swapping path); the symmetry theorem for
this definition is proved below. -/
def levenshtein_distance (s1 s2 : List Char) : Nat :=
  if s1.length < s2.length then levRaw s2 s1 else levRaw s1 s2

/-- Specification of a DP row: after consuming (in reverse) the prefix `a` of
`s1`, the row entry for the `j`-th prefix of the remaining `s2` (with `p` the
reversed already-consumed part of `s2`) is `lev a ((s2.take j).reverse ++ p)`. -/
def rowSpec (a : List Char) : List Char → List Char → List Nat
  | [], p => [lev a p]
  | c :: rest, p => lev a p :: rowSpec a rest (c :: p)

theorem rowSpec_headD (a s2 p : List Char) : (rowSpec a s2 p).headD 0 = lev a p := by
  cases s2 <;> simp [rowSpec]

theorem rowStep_spec (c1 : Char) (a : List Char) :
    ∀ (s2 p : List Char),
      lev (c1 :: a) p :: rowStep c1 s2 (rowSpec a s2 p) (lev (c1 :: a) p)
        = rowSpec (c1 :: a) s2 p := by
  intro s2
  induction s2 with
  | nil => intro p; simp [rowStep, rowSpec]
  | cons c2 rest ih =>
      intro p
      have hcell : min ((rowSpec a rest (c2 :: p)).headD 0 + 1)
          (min (lev (c1 :: a) p + 1) (lev a p + (if c1 = c2 then 0 else 1)))
          = lev (c1 :: a) (c2 :: p) := by
        rw [rowSpec_headD]
        rw [show lev (c1 :: a) (c2 :: p) = min (lev a (c2 :: p) + 1)
          (min (lev (c1 :: a) p + 1) (lev a p + (if c1 = c2 then 0 else 1))) from by rw [lev]]
      simp only [rowSpec, rowStep]
      rw [hcell, ih (c2 :: p)]

theorem levLoop_spec (s2 : List Char) :
    ∀ (s1rem a : List Char),
      levLoop s2 s1rem (rowSpec a s2 []) a.length = rowSpec (s1rem.reverse ++ a) s2 [] := by
  intro s1rem
  induction s1rem with
  | nil => intro a; simp [levLoop]
  | cons c1 rest ih =>
      intro a
      simp only [levLoop]
      have h1 : a.length + 1 = lev (c1 :: a) [] := by
        rw [lev_nil_right]; simp
      rw [h1, rowStep_spec c1 a s2 []]
      rw [show lev (c1 :: a) [] = (c1 :: a).length from lev_nil_right _]
      rw [ih (c1 :: a)]
      simp [List.reverse_cons, List.append_assoc]

theorem rowSpec_nil_eq_range' (s2 : List Char) :
    ∀ p : List Char, rowSpec [] s2 p = List.range' p.length (s2.length + 1) := by
  induction s2 with
  | nil => intro p; simp [rowSpec, lev, List.range']
  | cons c rest ih =>
      intro p
      simp only [rowSpec]
      rw [ih (c :: p)]
      simp [lev, List.range', List.length_cons]

theorem init_row (s2 : List Char) : List.range (s2.length + 1) = rowSpec [] s2 [] := by
  rw [List.range_eq_range', rowSpec_nil_eq_range']
  rfl

theorem rowSpec_getLastD (a : List Char) :
    ∀ (s2 p : List Char) (dflt : Nat),
      (rowSpec a s2 p).getLastD dflt = lev a (s2.reverse ++ p) := by
  intro s2
  induction s2 with
  | nil => intro p dflt; simp [rowSpec]
  | cons c rest ih =>
      intro p dflt
      simp only [rowSpec, List.getLastD_cons]
      rw [ih (c :: p)]
      simp [List.reverse_cons, List.append_assoc]

theorem levRaw_eq (s1 s2 : List Char) : levRaw s1 s2 = lev s1.reverse s2.reverse := by
  by_cases h : s2.length = 0
  · have h2 : s2 = [] := List.length_eq_zero.mp h
    subst h2
    simp [levRaw, lev_nil_right]
  · simp only [levRaw, if_neg h]
    rw [init_row]
    have hl := levLoop_spec s2 s1 []
    simp only [List.length_nil, List.append_nil] at hl
    rw [hl, rowSpec_getLastD]
    simp

theorem levenshtein_distance_eq_lev (s1 s2 : List Char) :
    levenshtein_distance s1 s2 = lev s1.reverse s2.reverse := by
  by_cases h : s1.length < s2.length
  · simp only [levenshtein_distance, if_pos h]
    rw [levRaw_eq, lev_comm]
  · simp only [levenshtein_distance, if_neg h]
    rw [levRaw_eq]

/-- C9: the edit-distance engine is symmetric, vanishes on equal inputs, and
returns the length of `a` against the empty string. -/
theorem C9_distance_properties (a b : List Char) :
    levenshtein_distance a b = levenshtein_distance b a
    ∧ levenshtein_distance a a = 0
    ∧ levenshtein_distance a [] = a.length := by
  refine ⟨?_, ?_, ?_⟩
  · rw [levenshtein_distance_eq_lev, levenshtein_distance_eq_lev, lev_comm]
  · rw [levenshtein_distance_eq_lev]
    exact lev_self _
  · rw [levenshtein_distance_eq_lev]
    simp [lev_nil_right]

/-! ## Substring containment and whitespace splitting

`containsSub pat l` embeds Python's `pat in l` on strings (contiguous
substring containment); `words` embeds `str.split()` (maximal runs of
non-whitespace characters). -/

/-- Bool test that `pat` is a leading segment of `l`. -/
def beginsWith : List Char → List Char → Bool
  | [], _ => true
  | _ :: _, [] => false
  | a :: ps, b :: ls => a = b && beginsWith ps ls

/-- Python's `pat in l` substring test on character lists. -/
def containsSub (pat : List Char) : List Char → Bool
  | [] => beginsWith pat []
  | c :: rest => beginsWith pat (c :: rest) || containsSub pat rest

theorem beginsWith_iff (pat : List Char) :
    ∀ l : List Char, beginsWith pat l = true ↔ ∃ v, pat ++ v = l := by
  induction pat with
  | nil => intro l; simp [beginsWith]
  | cons a ps ih =>
      intro l
      cases l with
      | nil => simp [beginsWith]
      | cons b ls =>
          simp [beginsWith, ih, List.cons_eq_cons]

theorem containsSub_iff (pat : List Char) :
    ∀ l : List Char, containsSub pat l = true ↔ ∃ u v, u ++ pat ++ v = l := by
  intro l
  induction l with
  | nil =>
      simp [containsSub, beginsWith_iff]
  | cons c rest ih =>
      simp only [containsSub, Bool.or_eq_true, beginsWith_iff, ih]
      constructor
      · rintro (⟨v, hv⟩ | ⟨u, v, huv⟩)
        · exact ⟨[], v, by simpa using hv⟩
        · exact ⟨c :: u, v, by simp [huv]⟩
      · rintro ⟨u, v, huv⟩
        cases u with
        | nil => exact Or.inl ⟨v, by simpa using huv⟩
        | cons c' u' =>
            simp only [List.cons_append, List.cons_eq_cons] at huv
            exact Or.inr ⟨u', v, huv.2⟩

theorem containsSub_trans {p w l : List Char} (h1 : containsSub p w = true)
    (h2 : containsSub w l = true) : containsSub p l = true := by
  rw [containsSub_iff] at h1 h2 ⊢
  obtain ⟨u1, v1, h1⟩ := h1
  obtain ⟨u2, v2, h2⟩ := h2
  exact ⟨u2 ++ u1, v1 ++ v2, by rw [← h2, ← h1]; simp [List.append_assoc]⟩

/-- Accumulator-based embedding of Python `str.split()`: `acc` holds the
characters of the word currently being read, in reverse. -/
def wordsGo : List Char → List Char → List (List Char)
  | [], acc => if acc = [] then [] else [acc.reverse]
  | c :: rest, acc =>
      if c.isWhitespace then
        if acc = [] then wordsGo rest [] else acc.reverse :: wordsGo rest []
      else wordsGo rest (c :: acc)

/-- `text.split()` of the source: whitespace-separated words. -/
def words (l : List Char) : List (List Char) := wordsGo l []

theorem wordsGo_sub : ∀ (l acc w : List Char), w ∈ wordsGo l acc →
    ∃ u v, u ++ w ++ v = acc.reverse ++ l := by
  intro l
  induction l with
  | nil =>
      intro acc w hw
      by_cases h : acc = [] <;> simp [wordsGo, h] at hw
      subst hw
      exact ⟨[], [], by simp⟩
  | cons c rest ih =>
      intro acc w hw
      by_cases hws : c.isWhitespace
      · by_cases h : acc = []
        · simp [wordsGo, hws, h] at hw
          obtain ⟨u, v, huv⟩ := ih [] w hw
          have huv2 : u ++ (w ++ v) = rest := by simpa using huv
          exact ⟨c :: u, v, by simp [h, huv2]⟩
        · simp [wordsGo, hws, h] at hw
          rcases hw with hw | hw
          · subst hw
            exact ⟨[], c :: rest, by simp⟩
          · obtain ⟨u, v, huv⟩ := ih [] w hw
            simp only [List.reverse_nil, List.nil_append] at huv
            exact ⟨acc.reverse ++ c :: u, v, by simp [← huv, List.append_assoc]⟩
      · simp [wordsGo, hws] at hw
        obtain ⟨u, v, huv⟩ := ih (c :: acc) w hw
        simp only [List.reverse_cons] at huv
        exact ⟨u, v, by simp [huv, List.append_assoc]⟩

theorem words_sub {w l : List Char} (hw : w ∈ words l) : containsSub w l = true := by
  rw [containsSub_iff]
  obtain ⟨u, v, huv⟩ := wordsGo_sub l [] w hw
  exact ⟨u, v, by simpa using huv⟩

/-! ## Fuzzy matcher (src/main.py, `fuzzy_match`, lines 135-172) -/

/-- `fuzzy_match(query, text, threshold)` of the source: case-fold both
inputs, then try (1) substring match giving 1.0, (2) word-contains match
giving 0.9, (3) best edit-distance similarity over words at least as long as
the query, kept only when it reaches `1 - threshold`. -/
def fuzzy_match (query text : List Char) (threshold : ℚ) : ℚ :=
  let q := query.map Char.toLower
  let t := text.map Char.toLower
  if containsSub q t then 1
  else if (words t).any (fun w => containsSub q w) then 9/10
  else
    let max_score := (words t).foldl
      (fun acc w =>
        if q.length ≤ w.length then
          let score : ℚ :=
            1 - (levenshtein_distance q w : ℚ) / ((max q.length w.length : Nat) : ℚ)
          if acc < score then score else acc
        else acc) 0
    if 1 - threshold ≤ max_score then max_score else 0

/-- Tier-3 scoring as the specification words it: collect, over every
whitespace-split word of the folded text whose length is at least the query's
length, the similarity `1 - distance/max(len query, len word)`; return the
maximum such similarity when it reaches `1 - threshold`, otherwise 0. -/
def tier3_spec (query text : List Char) (threshold : ℚ) : ℚ :=
  let q := query.map Char.toLower
  let t := text.map Char.toLower
  let sims := (words t).filterMap
    (fun w =>
      if q.length ≤ w.length then
        some (1 - (levenshtein_distance q w : ℚ) / ((max q.length w.length : Nat) : ℚ))
      else none)
  let best := sims.foldr max 0
  if 1 - threshold ≤ best then best else 0

theorem foldr_max_nonneg (l : List ℚ) : 0 ≤ l.foldr max 0 := by
  induction l with
  | nil => exact le_refl 0
  | cons x l ih => exact le_trans ih (le_max_right x _)

theorem fuzzy_foldl_eq (q : List Char) :
    ∀ (ws : List (List Char)) (acc : ℚ), 0 ≤ acc →
      ws.foldl
        (fun acc w =>
          if q.length ≤ w.length then
            let score : ℚ :=
              1 - (levenshtein_distance q w : ℚ) / ((max q.length w.length : Nat) : ℚ)
            if acc < score then score else acc
          else acc) acc
      = max acc
          ((ws.filterMap
            (fun w =>
              if q.length ≤ w.length then
                some (1 - (levenshtein_distance q w : ℚ) /
                  ((max q.length w.length : Nat) : ℚ))
              else none)).foldr max 0) := by
  intro ws
  induction ws with
  | nil =>
      intro acc hacc
      simp [max_eq_left hacc]
  | cons w ws ih =>
      intro acc hacc
      by_cases hlen : q.length ≤ w.length
      · simp only [List.foldl_cons, List.filterMap_cons, hlen, if_true, List.foldr_cons]
        have hmax : (if acc < (1 - (levenshtein_distance q w : ℚ) /
            ((max q.length w.length : Nat) : ℚ)) then
            (1 - (levenshtein_distance q w : ℚ) / ((max q.length w.length : Nat) : ℚ))
            else acc) = max acc (1 - (levenshtein_distance q w : ℚ) /
            ((max q.length w.length : Nat) : ℚ)) := by
          rcases le_or_lt (1 - (levenshtein_distance q w : ℚ) /
              ((max q.length w.length : Nat) : ℚ)) acc with h | h
          · rw [if_neg (not_lt.mpr h), max_eq_left h]
          · rw [if_pos h, max_eq_right h.le]
        simp only [hmax]
        rw [ih _ (le_trans hacc (le_max_left _ _))]
        rw [max_assoc]
      · simp only [List.foldl_cons, List.filterMap_cons, hlen, if_false]
        exact ih acc hacc

theorem fuzzy_match_of_sub (query text : List Char) (θ : ℚ)
    (h : containsSub (query.map Char.toLower) (text.map Char.toLower) = true) :
    fuzzy_match query text θ = 1 := by
  simp [fuzzy_match, h]

theorem fuzzy_match_tier3 (query text : List Char) (θ : ℚ)
    (h1 : containsSub (query.map Char.toLower) (text.map Char.toLower) = false)
    (h2 : (words (text.map Char.toLower)).any
        (fun w => containsSub (query.map Char.toLower) w) = false) :
    fuzzy_match query text θ = tier3_spec query text θ := by
  simp only [fuzzy_match, tier3_spec, h1, h2, Bool.false_eq_true, if_false]
  rw [fuzzy_foldl_eq _ _ 0 (le_refl 0)]
  rw [max_eq_right (foldr_max_nonneg _)]

theorem fuzzy_match_zero_of_short (query text : List Char) (θ : ℚ)
    (h1 : containsSub (query.map Char.toLower) (text.map Char.toLower) = false)
    (h2 : (words (text.map Char.toLower)).any
        (fun w => containsSub (query.map Char.toLower) w) = false)
    (h3 : ∀ w ∈ words (text.map Char.toLower),
        w.length < (query.map Char.toLower).length)
    (hθ : 0 < 1 - θ) :
    fuzzy_match query text θ = 0 := by
  have hfold : ∀ (ws : List (List Char)) (acc : ℚ),
      (∀ w ∈ ws, w.length < (query.map Char.toLower).length) →
      ws.foldl
        (fun acc w =>
          if (query.map Char.toLower).length ≤ w.length then
            let score : ℚ :=
              1 - (levenshtein_distance (query.map Char.toLower) w : ℚ) /
                ((max (query.map Char.toLower).length w.length : Nat) : ℚ)
            if acc < score then score else acc
          else acc) acc = acc := by
    intro ws
    induction ws with
    | nil => intro acc _; rfl
    | cons w ws ih =>
        intro acc hws
        have hw := hws w (List.mem_cons_self w ws)
        simp only [List.foldl_cons, if_neg (not_le.mpr hw)]
        exact ih acc (fun w2 hw2 => hws w2 (List.mem_cons_of_mem w hw2))
  simp only [fuzzy_match, h1, h2, Bool.false_eq_true, if_false]
  rw [hfold _ 0 h3]
  rw [if_neg (not_le.mpr hθ)]

/-- C5: whenever the case-folded query is a substring of the case-folded
text (and the query is non-empty), `fuzzy_match` returns exactly 1. -/
theorem C5_folded_substring_scores_one (query text : List Char) (θ : ℚ)
    (_hq : query ≠ [])
    (h : ∃ u v, u ++ query.map Char.toLower ++ v = text.map Char.toLower) :
    fuzzy_match query text θ = 1 :=
  fuzzy_match_of_sub query text θ ((containsSub_iff _ _).mpr h)

theorem C5_witness : fuzzy_match "abc".toList "xABCy".toList (3/10) = 1 :=
  C5_folded_substring_scores_one "abc".toList "xABCy".toList (3/10) (by decide)
    ⟨['x'], ['y'], by decide⟩

/-- C6: when neither the substring tier nor the word-contains tier applies,
`fuzzy_match` equals the spec-described edit-distance tier (`tier3_spec`):
the maximum similarity `1 - distance/max(len query, len word)` over all
whitespace-split words at least as long as the query, returned when it is at
least `1 - threshold`, otherwise 0; in particular the query
"xyz123notfound" against "hello world" at the default threshold scores 0. -/
theorem C6_tier3_matches_spec (query text : List Char) (θ : ℚ)
    (h1 : containsSub (query.map Char.toLower) (text.map Char.toLower) = false)
    (h2 : (words (text.map Char.toLower)).any
        (fun w => containsSub (query.map Char.toLower) w) = false) :
    fuzzy_match query text θ = tier3_spec query text θ
    ∧ fuzzy_match "xyz123notfound".toList "hello world".toList (3/10) = 0 :=
  ⟨fuzzy_match_tier3 query text θ h1 h2,
    fuzzy_match_zero_of_short _ _ _ (by decide) (by decide) (by decide) (by norm_num)⟩

theorem C6_witness :
    fuzzy_match "xyz123notfound".toList "hello world".toList (3/10)
      = tier3_spec "xyz123notfound".toList "hello world".toList (3/10) :=
  (C6_tier3_matches_spec "xyz123notfound".toList "hello world".toList (3/10)
    (by decide) (by decide)).1

/-- C10 counterexample: `fuzzy_match` CAN return 0.9, through the
edit-distance tier: a ten-character query one substitution away from the only
word of the text has similarity 1 - 1/10 = 9/10, which passes the default
threshold and is returned unchanged. -/
theorem C10_counterexample :
    fuzzy_match "abcdefghij".toList "abcdefghix".toList (3/10) = 9/10 := by
  rw [fuzzy_match_tier3 _ _ _ (by decide) (by decide)]
  have hw : words (List.map Char.toLower "abcdefghix".toList) = ["abcdefghix".toList] := by
    decide
  have hd : levenshtein_distance (List.map Char.toLower "abcdefghij".toList)
      "abcdefghix".toList = 1 := by decide
  have hlq : (List.map Char.toLower "abcdefghij".toList).length = 10 := by decide
  have hlw : ("abcdefghix".toList).length = 10 := by decide
  simp only [tier3_spec, hw, List.filterMap_cons, List.filterMap_nil, hlq, hlw, hd,
    List.foldr_cons, List.foldr_nil]
  norm_num

/-- C10 amended: the word-contains tier of `fuzzy_match` is unreachable:
whenever some whitespace-split word of the folded text contains the folded
query, the query is already a substring of the folded text itself, so the
substring tier fires first and the score is 1, not 0.9.  (The value 0.9 is
still attainable, through the edit-distance tier.) -/
theorem C10_word_tier_unreachable (query text : List Char) (θ : ℚ)
    (h : (words (text.map Char.toLower)).any
        (fun w => containsSub (query.map Char.toLower) w) = true) :
    containsSub (query.map Char.toLower) (text.map Char.toLower) = true
    ∧ fuzzy_match query text θ = 1 := by
  have hc : containsSub (query.map Char.toLower) (text.map Char.toLower) = true := by
    rcases List.any_eq_true.mp h with ⟨w, hw, hcw⟩
    exact containsSub_trans hcw (words_sub hw)
  exact ⟨hc, fuzzy_match_of_sub query text θ hc⟩

theorem C10_witness :
    containsSub ("ab".toList.map Char.toLower) ("xab y".toList.map Char.toLower) = true :=
  (C10_word_tier_unreachable "ab".toList "xab y".toList 0 (by decide)).1

/-! ## Search ranker (src/main.py, `fuzzy_search` lines 175-192 and
`get_groups` lines 227-243) -/

/-- The fields of the `Group` model (src/database.py) that the ranker and the
listing order read: the searchable texts (`description` is a nullable column)
and the pinned flag. -/
structure GroupR where
  name : List Char
  description : Option (List Char)
  pinned : Bool
deriving DecidableEq, Repr

/-- Per-record total score of `fuzzy_search`:
`total_score = max(name_score, desc_score * 0.7)` where the description score
is computed on `group.description or ""`. -/
def totalScore (query : List Char) (threshold : ℚ) (g : GroupR) : ℚ :=
  max (fuzzy_match query g.name threshold)
    (fuzzy_match query (g.description.getD []) threshold * (7/10))

/-- Insert one scored record into a sorted-descending list, after every
earlier record of greater-or-equal score: the placement Python's stable
`list.sort(key=lambda x: x[1], reverse=True)` gives the last element. -/
def insertDesc {α : Type} (x : α × ℚ) : List (α × ℚ) → List (α × ℚ)
  | [] => [x]
  | y :: ys => if y.2 ≤ x.2 then x :: y :: ys else y :: insertDesc x ys

/-- Stable descending sort by score, modelling
`results.sort(key=lambda x: x[1], reverse=True)`. -/
def sortDesc {α : Type} : List (α × ℚ) → List (α × ℚ)
  | [] => []
  | x :: xs => insertDesc x (sortDesc xs)

/-- `fuzzy_search(query, groups, threshold)` of the source: score every
group on name and description, keep the pairs with positive total score,
sort stably by descending score, and project back to the records. -/
def fuzzy_search (query : List Char) (groups : List GroupR) (threshold : ℚ) :
    List GroupR :=
  (sortDesc (groups.filterMap (fun g =>
    if 0 < totalScore query threshold g then some (g, totalScore query threshold g)
    else none))).map Prod.fst

theorem insertDesc_perm {α : Type} (x : α × ℚ) (l : List (α × ℚ)) :
    List.Perm (insertDesc x l) (x :: l) := by
  induction l with
  | nil => exact List.Perm.refl _
  | cons y ys ih =>
      simp only [insertDesc]
      by_cases h : y.2 ≤ x.2
      · rw [if_pos h]
      · rw [if_neg h]
        exact (ih.cons y).trans (List.Perm.swap x y ys)

theorem sortDesc_perm {α : Type} (l : List (α × ℚ)) : List.Perm (sortDesc l) l := by
  induction l with
  | nil => exact List.Perm.refl _
  | cons x xs ih => exact (insertDesc_perm x (sortDesc xs)).trans (ih.cons x)

theorem insertDesc_pairwise {α : Type} (x : α × ℚ) (l : List (α × ℚ))
    (h : l.Pairwise (fun a b => b.2 ≤ a.2)) :
    (insertDesc x l).Pairwise (fun a b => b.2 ≤ a.2) := by
  induction l with
  | nil => simp [insertDesc]
  | cons y ys ih =>
      simp only [insertDesc]
      rcases List.pairwise_cons.mp h with ⟨hy, hys⟩
      by_cases hc : y.2 ≤ x.2
      · rw [if_pos hc]
        refine List.pairwise_cons.mpr ⟨?_, h⟩
        intro z hz
        rcases List.mem_cons.mp hz with rfl | hz2
        · exact hc
        · exact le_trans (hy z hz2) hc
      · rw [if_neg hc]
        refine List.pairwise_cons.mpr ⟨?_, ih hys⟩
        intro z hz
        have hz3 := (insertDesc_perm x ys).mem_iff.mp hz
        rcases List.mem_cons.mp hz3 with rfl | hz4
        · exact (not_le.mp hc).le
        · exact hy z hz4

theorem sortDesc_pairwise {α : Type} (l : List (α × ℚ)) :
    (sortDesc l).Pairwise (fun a b => b.2 ≤ a.2) := by
  induction l with
  | nil => simp [sortDesc]
  | cons x xs ih => exact insertDesc_pairwise x (sortDesc xs) ih

theorem insertDesc_filter {α : Type} (s : ℚ) (x : α × ℚ) (l : List (α × ℚ)) :
    (insertDesc x l).filter (fun p => decide (p.2 = s))
      = if x.2 = s then x :: l.filter (fun p => decide (p.2 = s))
        else l.filter (fun p => decide (p.2 = s)) := by
  induction l with
  | nil =>
      by_cases h : x.2 = s <;> simp [insertDesc, List.filter, h]
  | cons y ys ih =>
      simp only [insertDesc]
      by_cases hc : y.2 ≤ x.2
      · rw [if_pos hc]
        by_cases hx : x.2 = s <;> simp [List.filter_cons, hx]
      · rw [if_neg hc]
        rw [List.filter_cons, List.filter_cons, ih]
        by_cases hx : x.2 = s
        · have hy : ¬ (y.2 = s) := by
            intro hy
            exact hc (by rw [hy, hx])
          simp [hx, hy]
        · by_cases hy : y.2 = s <;> simp [hx, hy]

theorem sortDesc_filter {α : Type} (s : ℚ) (l : List (α × ℚ)) :
    (sortDesc l).filter (fun p => decide (p.2 = s))
      = l.filter (fun p => decide (p.2 = s)) := by
  induction l with
  | nil => rfl
  | cons x xs ih =>
      simp only [sortDesc]
      rw [insertDesc_filter, List.filter_cons]
      by_cases hx : x.2 = s <;> simp [hx, ih]

theorem results_snd (query : List Char) (θ : ℚ) (groups : List GroupR) :
    ∀ p ∈ groups.filterMap (fun g =>
      if 0 < totalScore query θ g then some (g, totalScore query θ g) else none),
      p.2 = totalScore query θ p.1 := by
  intro p hp
  rcases List.mem_filterMap.mp hp with ⟨g, _, hg⟩
  by_cases h : 0 < totalScore query θ g
  · rw [if_pos h] at hg
    rcases Option.some_inj.mp hg with rfl
    rfl
  · rw [if_neg h] at hg
    cases hg

theorem results_map_fst (query : List Char) (θ : ℚ) (groups : List GroupR) :
    (groups.filterMap (fun g =>
      if 0 < totalScore query θ g then some (g, totalScore query θ g) else none)).map
        Prod.fst
      = groups.filter (fun g => decide (0 < totalScore query θ g)) := by
  induction groups with
  | nil => rfl
  | cons g gs ih =>
      simp only [List.filterMap_cons, List.filter_cons]
      by_cases h : 0 < totalScore query θ g
      · simp [h, ih]
      · simp [h, ih]

theorem map_fst_filter_comm (query : List Char) (θ : ℚ) (s : ℚ) :
    ∀ (l : List (GroupR × ℚ)), (∀ p ∈ l, p.2 = totalScore query θ p.1) →
      (l.map Prod.fst).filter (fun g => decide (totalScore query θ g = s))
        = (l.filter (fun p => decide (p.2 = s))).map Prod.fst := by
  intro l
  induction l with
  | nil => intro _; rfl
  | cons p ps ih =>
      intro h
      have hp := h p (List.mem_cons_self p ps)
      have hrest := ih (fun q hq => h q (List.mem_cons_of_mem p hq))
      simp only [List.map_cons, List.filter_cons, hp]
      by_cases hcond : totalScore query θ p.1 = s
      · simp [hcond, hrest]
      · simp [hcond, hrest]

theorem results_filter_map_fst (query : List Char) (θ : ℚ) (s : ℚ)
    (groups : List GroupR) :
    ((groups.filterMap (fun g =>
        if 0 < totalScore query θ g then some (g, totalScore query θ g)
        else none)).filter (fun p => decide (p.2 = s))).map Prod.fst
      = groups.filter (fun g =>
          decide (0 < totalScore query θ g) && decide (totalScore query θ g = s)) := by
  induction groups with
  | nil => rfl
  | cons g gs ih =>
      simp only [List.filterMap_cons, List.filter_cons]
      by_cases h : 0 < totalScore query θ g
      · by_cases h2 : totalScore query θ g = s
        · have h3 : (0 : ℚ) < s := h2 ▸ h
          simp [h, h2, h3, List.filter_cons, ih]
        · simp [h, h2, List.filter_cons, ih]
      · simp [h, ih]

theorem fuzzy_match_nonneg (query text : List Char) (θ : ℚ) :
    0 ≤ fuzzy_match query text θ := by
  cases hc1 : containsSub (query.map Char.toLower) (text.map Char.toLower) with
  | true => norm_num [fuzzy_match, hc1]
  | false =>
      cases hc2 : (words (text.map Char.toLower)).any
          (fun w => containsSub (query.map Char.toLower) w) with
      | true => norm_num [fuzzy_match, hc1, hc2]
      | false =>
          simp only [fuzzy_match, hc1, hc2, Bool.false_eq_true, if_false]
          rw [fuzzy_foldl_eq _ _ 0 (le_refl 0)]
          split
          · exact le_max_left 0 _
          · exact le_refl 0

theorem totalScore_nonneg (query : List Char) (θ : ℚ) (g : GroupR) :
    0 ≤ totalScore query θ g :=
  le_trans (fuzzy_match_nonneg query g.name θ) (le_max_left _ _)

/-- The first record of the spec's ranking example: name "Algorithms Club",
no description. -/
def gAlg : GroupR := ⟨"Algorithms Club".toList, none, false⟩

/-- The second record of the spec's ranking example: name "Art Society",
description "algorithms and art". -/
def gArt : GroupR := ⟨"Art Society".toList, some "algorithms and art".toList, false⟩

/-- C3: `fuzzy_search` keeps exactly the records of positive total score
(total score is nonnegative, so this excludes exactly the zero scores),
orders them by weakly decreasing total score, and is stable: filtering the
output at any fixed score value gives those records in their original input
order.  On the spec's example, "Algorithms Club" (name substring, score 1)
outranks "Art Society" (weighted description match, score 0.7) and both
appear. -/
theorem C3_ranking_sorted_stable (query : List Char) (θ : ℚ) (groups : List GroupR) :
    List.Perm (fuzzy_search query groups θ)
      (groups.filter (fun g => decide (0 < totalScore query θ g)))
    ∧ List.Pairwise (fun a b => totalScore query θ b ≤ totalScore query θ a)
        (fuzzy_search query groups θ)
    ∧ (∀ s : ℚ, (fuzzy_search query groups θ).filter
          (fun g => decide (totalScore query θ g = s))
        = groups.filter (fun g =>
            decide (0 < totalScore query θ g) && decide (totalScore query θ g = s)))
    ∧ (∀ g : GroupR, 0 ≤ totalScore query θ g)
    ∧ fuzzy_search "algorithm".toList [gAlg, gArt] (3/10) = [gAlg, gArt] := by
  have hsnd : ∀ p ∈ sortDesc (groups.filterMap (fun g =>
      if 0 < totalScore query θ g then some (g, totalScore query θ g) else none)),
      p.2 = totalScore query θ p.1 := by
    intro p hp
    exact results_snd query θ groups p ((sortDesc_perm _).mem_iff.mp hp)
  refine ⟨?_, ?_, ?_, totalScore_nonneg query θ, ?_⟩
  · have h1 := (sortDesc_perm (groups.filterMap (fun g =>
      if 0 < totalScore query θ g then some (g, totalScore query θ g) else none))).map
        Prod.fst
    rw [results_map_fst] at h1
    exact h1
  · rw [fuzzy_search, List.pairwise_map]
    have h2 := sortDesc_pairwise (groups.filterMap (fun g =>
      if 0 < totalScore query θ g then some (g, totalScore query θ g) else none))
    refine List.Pairwise.imp_of_mem ?_ h2
    intro a b ha hb hab
    rw [← hsnd a ha, ← hsnd b hb]
    exact hab
  · intro s
    rw [fuzzy_search, map_fst_filter_comm query θ s _ hsnd, sortDesc_filter,
      results_filter_map_fst]
  · have hA : fuzzy_match "algorithm".toList "Algorithms Club".toList (3/10) = 1 :=
      fuzzy_match_of_sub _ _ _ (by decide)
    have hAd : fuzzy_match "algorithm".toList ([] : List Char) (3/10) = 0 :=
      fuzzy_match_zero_of_short _ _ _ (by decide) (by decide) (by decide) (by norm_num)
    have hB : fuzzy_match "algorithm".toList "Art Society".toList (3/10) = 0 :=
      fuzzy_match_zero_of_short _ _ _ (by decide) (by decide) (by decide) (by norm_num)
    have hBd : fuzzy_match "algorithm".toList "algorithms and art".toList (3/10) = 1 :=
      fuzzy_match_of_sub _ _ _ (by decide)
    have tA : totalScore "algorithm".toList (3/10) gAlg = 1 := by
      rw [totalScore, show gAlg.name = "Algorithms Club".toList from rfl,
        show gAlg.description = none from rfl, hA]
      rw [show (none : Option (List Char)).getD [] = ([] : List Char) from rfl, hAd]
      norm_num [max_def]
    have tB : totalScore "algorithm".toList (3/10) gArt = 7/10 := by
      rw [totalScore, show gArt.name = "Art Society".toList from rfl,
        show gArt.description = some "algorithms and art".toList from rfl, hB]
      rw [show (some "algorithms and art".toList).getD []
        = "algorithms and art".toList from rfl, hBd]
      norm_num [max_def]
    rw [fuzzy_search, List.filterMap_cons, List.filterMap_cons, List.filterMap_nil]
    rw [tA, tB]
    rw [if_pos (by norm_num : (0:ℚ) < 1), if_pos (by norm_num : (0:ℚ) < 7/10)]
    rw [show sortDesc [(gAlg, (1:ℚ)), (gArt, 7/10)]
        = insertDesc (gAlg, (1:ℚ)) [(gArt, 7/10)] from rfl]
    rw [show insertDesc (gAlg, (1:ℚ)) [(gArt, 7/10)]
        = if (7/10 : ℚ) ≤ 1 then (gAlg, (1:ℚ)) :: [(gArt, 7/10)]
          else (gArt, 7/10) :: insertDesc (gAlg, (1:ℚ)) [] from rfl]
    rw [if_pos (by norm_num : (7/10 : ℚ) ≤ 1)]
    rfl

/-! ## Record listing (src/main.py, `get_groups`, lines 227-243) -/

/-- `get_groups(q, db)` of the source, on the record list it reads from the
store: with a query that is present and not whitespace-only it returns
`fuzzy_search(q, groups)` at the default threshold; otherwise it returns the
pinned records followed by the unpinned ones, each side in original order
(`pinned + unpinned` built from two list comprehensions).  Python's
`if q and q.strip():` is truthy exactly when the optional query contains
some non-whitespace character. -/
def get_groups (q : Option (List Char)) (groups : List GroupR) : List GroupR :=
  match q with
  | some s =>
      if s.any (fun c => !c.isWhitespace) then fuzzy_search s groups (3/10)
      else groups.filter (fun g => g.pinned) ++ groups.filter (fun g => !g.pinned)
  | none => groups.filter (fun g => g.pinned) ++ groups.filter (fun g => !g.pinned)

/-- Record A of the spec's ordering example (not pinned). -/
def gA : GroupR := ⟨['A'], none, false⟩

/-- Record B of the spec's ordering example (pinned). -/
def gB : GroupR := ⟨['B'], none, true⟩

/-- Record C of the spec's ordering example (not pinned). -/
def gC : GroupR := ⟨['C'], none, false⟩

/-- C4: with an absent or whitespace-only query, the listing is the pinned
records followed by the unpinned records, both in their original relative
order — the fixed partition ordering, computed without the matcher; on
records A(unpinned), B(pinned), C(unpinned) the result is [B, A, C]. -/
theorem C4_no_query_pinned_first (groups : List GroupR) (s : List Char)
    (hs : s.all (fun c => c.isWhitespace) = true) :
    get_groups none groups
        = groups.filter (fun g => g.pinned) ++ groups.filter (fun g => !g.pinned)
    ∧ get_groups (some s) groups
        = groups.filter (fun g => g.pinned) ++ groups.filter (fun g => !g.pinned)
    ∧ get_groups none [gA, gB, gC] = [gB, gA, gC] := by
  refine ⟨rfl, ?_, by decide⟩
  have hany : s.any (fun c => !c.isWhitespace) = false := by
    cases hval : s.any (fun c => !c.isWhitespace) with
    | false => rfl
    | true =>
        rcases List.any_eq_true.mp hval with ⟨c, hc, hcb⟩
        have hw := List.all_eq_true.mp hs c hc
        simp [hw] at hcb
  simp [get_groups, hany]

theorem C4_witness : get_groups (some [' ', ' ']) [gA, gB, gC] = [gB, gA, gC] := by
  have h := (C4_no_query_pinned_first [gA, gB, gC] [' ', ' '] (by decide)).2.1
  exact h.trans (by decide)

/-! ## Lockout guard and admin authentication
(src/main.py, `admin_login` lines 332-386, `admin_status` lines 389-408,
`verify_admin` lines 77-91)

Wall-clock time is embedded as integer seconds, so `timedelta(hours=24)`
becomes 86400 and remaining lock time is a `Nat` difference.  The module
globals `lockout_data` (a dict) and `admin_tokens` (a set) are threaded
explicitly: the dict as an association list with first-match lookup and
in-place overwrite, the set as a list used only through membership. -/

/-- One entry of `lockout_data`:
`{"attempts": ..., "locked_until": ...}`. -/
structure IpData where
  attempts : Nat
  locked_until : Option Nat
deriving DecidableEq, Repr

/-- Dict lookup `lockout_data[ip]` (with `none` for a missing key). -/
def lkp : List (String × IpData) → String → Option IpData
  | [], _ => none
  | (k, v) :: rest, ip => if k = ip then some v else lkp rest ip

/-- Dict assignment `lockout_data[ip] = d`. -/
def setIp : List (String × IpData) → String → IpData → List (String × IpData)
  | [], ip, d => [(ip, d)]
  | (k, v) :: rest, ip, d =>
      if k = ip then (ip, d) :: rest else (k, v) :: setIp rest ip d

/-- The lock test of the source,
`ip_data["locked_until"] and datetime.now() < ip_data["locked_until"]`
(a `None` lock is falsy). -/
def lockedNow (now : Nat) (d : IpData) : Bool :=
  match d.locked_until with
  | some t => decide (now < t)
  | none => false

/-- Hex digit of `binascii` lowercase hex encoding. -/
def hexDigit (n : Nat) : Char :=
  if n < 10 then Char.ofNat (48 + n) else Char.ofNat (87 + n)

/-- Lowercase two-digit hex rendering of one byte. -/
def byteHex (b : Fin 256) : List Char :=
  [hexDigit (b.val / 16), hexDigit (b.val % 16)]

/-- `secrets.token_hex` on explicitly-given random bytes: the lowercase hex
string of the byte sequence. -/
def token_hex : List (Fin 256) → List Char
  | [] => []
  | b :: bs => byteHex b ++ token_hex bs

/-- The outcome of `admin_login`: the 200 response with the fresh token, or
one of the three error responses (403 while locked with the remaining time,
403 on the locking third failure, 401 with the new attempt count). -/
inductive AuthOutcome where
  | authenticated : List Char → AuthOutcome
  | stillLocked : Nat → AuthOutcome
  | newlyLocked : AuthOutcome
  | failed : Nat → AuthOutcome
deriving DecidableEq, Repr

/-- `admin_login` of src/main.py lines 332-386, as a function of the current
time, the submitted and configured passwords, the client identity, the
random bytes drawn by `secrets.token_hex(32)`, and the two globals; it
returns the outcome and the updated globals.  Steps, in source order:
first-touch insertion of `{"attempts": 0, "locked_until": None}`, the
still-locked 403 guard, the success branch (reset entry, mint and store a
token), and the failure branch (increment attempts, lock for 24h at three
or more, otherwise report the count). -/
def admin_login (now : Nat) (password admin_password ip : String)
    (rand : List (Fin 256)) (lockout_data : List (String × IpData))
    (admin_tokens : List (List Char)) :
    AuthOutcome × List (String × IpData) × List (List Char) :=
  let m := if (lkp lockout_data ip).isNone
    then setIp lockout_data ip ⟨0, none⟩ else lockout_data
  let d := (lkp m ip).getD ⟨0, none⟩
  if lockedNow now d then
    (.stillLocked (d.locked_until.getD 0 - now), m, admin_tokens)
  else if password = admin_password then
    let token := token_hex rand
    (.authenticated token, setIp m ip ⟨0, none⟩, token :: admin_tokens)
  else
    let a := d.attempts + 1
    if 3 ≤ a then
      (.newlyLocked, setIp m ip ⟨a, some (now + 86400)⟩, admin_tokens)
    else
      (.failed a, setIp m ip ⟨a, d.locked_until⟩, admin_tokens)

/-- The JSON body returned by `admin_status`. -/
structure LockStatus where
  locked : Bool
  remaining_seconds : Option Nat
  attempts : Nat
deriving DecidableEq, Repr

/-- `admin_status` of src/main.py lines 389-408: report the lock state for
the client identity; the body performs no assignment, so the returned
`lockout_data` is the input one. -/
def admin_status (now : Nat) (ip : String)
    (lockout_data : List (String × IpData)) :
    LockStatus × List (String × IpData) :=
  match lkp lockout_data ip with
  | some d =>
      if lockedNow now d then
        (⟨true, some (d.locked_until.getD 0 - now), d.attempts⟩, lockout_data)
      else (⟨false, none, d.attempts⟩, lockout_data)
  | none => (⟨false, none, 0⟩, lockout_data)

theorem lkp_setIp_self (ip : String) (d : IpData) :
    ∀ m : List (String × IpData), lkp (setIp m ip d) ip = some d := by
  intro m
  induction m with
  | nil => simp [setIp, lkp]
  | cons kv rest ih =>
      obtain ⟨k, v⟩ := kv
      by_cases h : k = ip
      · simp [setIp, lkp, h]
      · simp [setIp, lkp, h, ih]

theorem lkp_firstTouch (ip : String) (m : List (String × IpData)) :
    lkp (if (lkp m ip).isNone then setIp m ip ⟨0, none⟩ else m) ip
      = some ((lkp m ip).getD ⟨0, none⟩) := by
  cases h : lkp m ip with
  | none => simp [h, lkp_setIp_self]
  | some d => simp [h]

/-- C1 counterexample: an identity locked until time 100 submits the correct
admin password at time 50; the code answers the still-locked 403 (not the
authenticated outcome) and leaves the stored counter at 3 and the lock in
place, because the lock guard runs before the credential check. -/
theorem C1_counterexample :
    (admin_login 50 "admin123" "admin123" "1.2.3.4" []
        [("1.2.3.4", ⟨3, some 100⟩)] []).1 = .stillLocked 50
    ∧ (admin_login 50 "admin123" "admin123" "1.2.3.4" []
        [("1.2.3.4", ⟨3, some 100⟩)] []).2.1 = [("1.2.3.4", ⟨3, some 100⟩)] := by
  decide

/-- C1 amended: a login with the correct admin password resets the
identity's entry to zero attempts and no lock and returns the authenticated
outcome with the fresh token, PROVIDED no unexpired lock is in force for the
identity; while an unexpired lock is in force, the attempt (even with the
correct password) returns the still-locked outcome with the remaining time
and leaves the state unchanged. -/
theorem C1_success_resets_when_open (now : Nat) (pw ip : String)
    (rand : List (Fin 256)) (m : List (String × IpData))
    (toks : List (List Char))
    (hopen : lockedNow now ((lkp m ip).getD ⟨0, none⟩) = false) :
    ((admin_login now pw pw ip rand m toks).1 = .authenticated (token_hex rand)
      ∧ lkp (admin_login now pw pw ip rand m toks).2.1 ip = some ⟨0, none⟩
      ∧ (admin_login now pw pw ip rand m toks).2.2 = token_hex rand :: toks)
    ∧ (∀ (m2 : List (String × IpData)) (d : IpData) (t : Nat),
        lkp m2 ip = some d → d.locked_until = some t → now < t →
        admin_login now pw pw ip rand m2 toks = (.stillLocked (t - now), m2, toks)) := by
  constructor
  · have hd := lkp_firstTouch ip m
    simp only [admin_login, hd, Option.getD_some, hopen, Bool.false_eq_true, if_false,
      if_pos rfl]
    exact ⟨rfl, lkp_setIp_self ip ⟨0, none⟩ _, rfl⟩
  · intro m2 d t hm hd ht
    have hisNone : (lkp m2 ip).isNone = false := by simp [hm]
    have hlocked : lockedNow now ((lkp m2 ip).getD ⟨0, none⟩) = true := by
      simp [hm, lockedNow, hd, ht]
    simp only [admin_login, hisNone, Bool.false_eq_true, if_false, hlocked, if_true]
    simp [hm, hd]

theorem C1_witness :
    (admin_login 0 "admin123" "admin123" "ip1" [5] [] []).1
      = .authenticated (token_hex [5]) :=
  ((C1_success_resets_when_open 0 "admin123" "ip1" [5] [] [] (by decide)).1).1

/-- C2: with a wrong password, (a) while an unexpired lock is in force the
outcome is the still-locked 403 carrying the remaining time and the state is
untouched (no increment); (b) while open, the attempt counter is
incremented, and if the new count reaches 3 the entry is locked until
`now + 86400` with the newly-locked outcome; (c) otherwise the outcome
reports the new count `a` (equivalently `attempts_remaining = 3 - a`) and
the lock field is left as stored. -/
theorem C2_failed_attempt_transitions (now : Nat) (pw apw ip : String)
    (rand : List (Fin 256)) (m : List (String × IpData))
    (toks : List (List Char)) (hpw : pw ≠ apw) :
    (∀ (d : IpData) (t : Nat), lkp m ip = some d → d.locked_until = some t → now < t →
        admin_login now pw apw ip rand m toks = (.stillLocked (t - now), m, toks))
    ∧ (lockedNow now ((lkp m ip).getD ⟨0, none⟩) = false →
        (3 ≤ ((lkp m ip).getD ⟨0, none⟩).attempts + 1 →
          admin_login now pw apw ip rand m toks
            = (.newlyLocked,
                setIp (if (lkp m ip).isNone then setIp m ip ⟨0, none⟩ else m) ip
                  ⟨((lkp m ip).getD ⟨0, none⟩).attempts + 1, some (now + 86400)⟩,
                toks))
        ∧ (((lkp m ip).getD ⟨0, none⟩).attempts + 1 < 3 →
          admin_login now pw apw ip rand m toks
            = (.failed (((lkp m ip).getD ⟨0, none⟩).attempts + 1),
                setIp (if (lkp m ip).isNone then setIp m ip ⟨0, none⟩ else m) ip
                  ⟨((lkp m ip).getD ⟨0, none⟩).attempts + 1,
                    ((lkp m ip).getD ⟨0, none⟩).locked_until⟩,
                toks))) := by
  constructor
  · intro d t hm hd ht
    have hisNone : (lkp m ip).isNone = false := by simp [hm]
    have hlocked : lockedNow now ((lkp m ip).getD ⟨0, none⟩) = true := by
      simp [hm, lockedNow, hd, ht]
    simp only [admin_login, hisNone, Bool.false_eq_true, if_false, hlocked, if_true]
    simp [hm, hd]
  · intro hopen
    have hd := lkp_firstTouch ip m
    constructor
    · intro h3
      simp only [admin_login, hd, Option.getD_some, hopen, Bool.false_eq_true, if_false,
        if_neg hpw, if_pos h3]
    · intro h3
      simp only [admin_login, hd, Option.getD_some, hopen, Bool.false_eq_true, if_false,
        if_neg hpw, if_neg (not_le.mpr h3)]

theorem C2_witness :
    admin_login 0 "wrong" "admin123" "ip2" [] [] []
      = (.failed 1, [("ip2", ⟨1, none⟩)], []) := by
  have h := ((C2_failed_attempt_transitions 0 "wrong" "admin123" "ip2" [] [] []
    (by decide)).2 (by decide)).2 (by decide)
  exact h.trans (by decide)

/-- C7: `admin_status` never changes the lockout state; for an identity
whose stored lock expiry lies in the past it reports unlocked while exposing
the stored attempt counter unchanged (the lazy clear does not zero it), and
an identity with no entry reports unlocked with zero attempts. -/
theorem C7_status_read_only (now : Nat) (ip : String)
    (m : List (String × IpData)) (d : IpData) (t : Nat)
    (h1 : lkp m ip = some d) (h2 : d.locked_until = some t) (h3 : t < now) :
    (∀ (n2 : Nat) (ip2 : String) (m2 : List (String × IpData)),
        (admin_status n2 ip2 m2).2 = m2)
    ∧ admin_status now ip m = (⟨false, none, d.attempts⟩, m)
    ∧ (∀ (n2 : Nat) (ip2 : String) (m2 : List (String × IpData)),
        lkp m2 ip2 = none → admin_status n2 ip2 m2 = (⟨false, none, 0⟩, m2)) := by
  refine ⟨?_, ?_, ?_⟩
  · intro n2 ip2 m2
    cases h : lkp m2 ip2 with
    | none => simp [admin_status, h]
    | some dd =>
        cases hl : lockedNow n2 dd <;> simp [admin_status, h, hl]
  · have hl : lockedNow now d = false := by
      simp [lockedNow, h2]
      omega
    simp [admin_status, h1, hl]
  · intro n2 ip2 m2 h
    simp [admin_status, h]

theorem C7_witness :
    admin_status 200 "a" [("a", ⟨2, some 100⟩)]
      = (⟨false, none, 2⟩, [("a", ⟨2, some 100⟩)]) :=
  (C7_status_read_only 200 "a" [("a", ⟨2, some 100⟩)] ⟨2, some 100⟩ 100
    (by decide) rfl (by decide)).2.1

/-! ## Admin session store (src/main.py, lines 366-373 and `verify_admin`
lines 77-91) -/

/-- `issue()` of the session store: mint
`token = secrets.token_hex(32)` (the hex string of the drawn bytes) and add
it to the valid set (`admin_tokens.add(token)`). -/
def issue (rand : List (Fin 256)) (admin_tokens : List (List Char)) :
    List Char × List (List Char) :=
  (token_hex rand, token_hex rand :: admin_tokens)

/-- `validate(presented)`: exact set membership, the test
`token not in admin_tokens` of `verify_admin`. -/
def validate (presented : List Char) (admin_tokens : List (List Char)) : Bool :=
  decide (presented ∈ admin_tokens)

/-- Python `str.strip()`: drop whitespace from both ends. -/
def trimWs (l : List Char) : List Char :=
  ((l.dropWhile (fun c => c.isWhitespace)).reverse.dropWhile
    (fun c => c.isWhitespace)).reverse

/-- `auth_header.replace("Bearer ", "")`: delete every occurrence of the
7-character pattern, scanning left to right. -/
def replaceBearer : List Char → List Char
  | [] => []
  | c :: rest =>
      if h : (c :: rest).take 7 = "Bearer ".toList then
        replaceBearer ((c :: rest).drop 7)
      else c :: replaceBearer rest
termination_by l => l.length
decreasing_by
  · have h7 : ((c :: rest).take 7).length = 7 := by rw [h]; rfl
    simp [List.length_take] at h7
    simp [List.length_drop]
    omega
  · simp

/-- `verify_admin` of src/main.py lines 77-91: strip the bearer prefix and
surrounding whitespace from the Authorization header, then test membership
in the token set (the source raises 401 exactly when this is false). -/
def verify_admin (auth_header : List Char) (admin_tokens : List (List Char)) : Bool :=
  validate (trimWs (replaceBearer auth_header)) admin_tokens

theorem hexDigit_inj16 : ∀ a b : Fin 16, hexDigit a.val = hexDigit b.val → a = b := by
  decide

theorem byteHex_inj (a b : Fin 256) (h : byteHex a = byteHex b) : a = b := by
  simp only [byteHex, List.cons_eq_cons, and_true] at h
  obtain ⟨h1, h2⟩ := h
  have hd1 : a.val / 16 < 16 := by omega
  have hd2 : b.val / 16 < 16 := by omega
  have hm1 : a.val % 16 < 16 := by omega
  have hm2 : b.val % 16 < 16 := by omega
  have e1 := hexDigit_inj16 ⟨a.val / 16, hd1⟩ ⟨b.val / 16, hd2⟩ h1
  have e2 := hexDigit_inj16 ⟨a.val % 16, hm1⟩ ⟨b.val % 16, hm2⟩ h2
  have v1 : a.val / 16 = b.val / 16 := congrArg Fin.val e1
  have v2 : a.val % 16 = b.val % 16 := congrArg Fin.val e2
  apply Fin.ext
  omega

theorem token_hex_inj : ∀ b1 b2 : List (Fin 256), token_hex b1 = token_hex b2 → b1 = b2 := by
  intro b1
  induction b1 with
  | nil =>
      intro b2 h
      cases b2 with
      | nil => rfl
      | cons c cs => simp [token_hex, byteHex] at h
  | cons b bs ih =>
      intro b2 h
      cases b2 with
      | nil => simp [token_hex, byteHex] at h
      | cons c cs =>
          simp only [token_hex, byteHex, List.cons_append, List.nil_append,
            List.cons_eq_cons] at h
          obtain ⟨h1, h2, h3⟩ := h
          rw [byteHex_inj b c (by simp [byteHex, h1, h2]), ih cs h3]

theorem hexDigit_chars : ∀ x : Fin 16,
    hexDigit x.val ≠ 'B' ∧ (hexDigit x.val).isWhitespace = false := by
  decide

theorem byteHex_chars : ∀ (b : Fin 256), ∀ c ∈ byteHex b,
    c ≠ 'B' ∧ c.isWhitespace = false := by
  intro b c hc
  simp only [byteHex, List.mem_cons, List.not_mem_nil, or_false] at hc
  rcases hc with rfl | rfl
  · exact hexDigit_chars ⟨b.val / 16, by omega⟩
  · exact hexDigit_chars ⟨b.val % 16, by omega⟩

theorem token_hex_chars (bs : List (Fin 256)) :
    ∀ c ∈ token_hex bs, c ≠ 'B' ∧ c.isWhitespace = false := by
  induction bs with
  | nil => intro c hc; simp [token_hex] at hc
  | cons b rest ih =>
      intro c hc
      rw [token_hex] at hc
      rcases List.mem_append.mp hc with h | h
      · exact byteHex_chars b c h
      · exact ih c h

theorem replaceBearer_noB : ∀ l : List Char, (∀ c ∈ l, c ≠ 'B') →
    replaceBearer l = l := by
  intro l
  induction l using replaceBearer.induct with
  | case1 => intro _; simp [replaceBearer]
  | case2 c rest h ih =>
      intro hB
      exfalso
      have hc : c = 'B' := by
        have h7 := congrArg (fun l => l.headD ' ') h
        simpa [List.take_succ_cons] using h7
      exact hB c (List.mem_cons_self _ _) hc
  | case3 c rest h ih =>
      intro hB
      rw [replaceBearer, dif_neg h]
      rw [ih (fun c2 hc2 => hB c2 (List.mem_cons_of_mem c hc2))]

theorem dropWhile_noWs (l : List Char) (h : ∀ c ∈ l, c.isWhitespace = false) :
    l.dropWhile (fun c => c.isWhitespace) = l := by
  cases l with
  | nil => rfl
  | cons c rest => simp [List.dropWhile_cons, h c (List.mem_cons_self _ _)]

theorem trimWs_noWs (l : List Char) (h : ∀ c ∈ l, c.isWhitespace = false) :
    trimWs l = l := by
  rw [trimWs, dropWhile_noWs l h,
    dropWhile_noWs l.reverse (fun c hc => h c (List.mem_reverse.mp hc)),
    List.reverse_reverse]

theorem replaceBearer_prepend (r : List Char) :
    replaceBearer ("Bearer ".toList ++ r) = replaceBearer r := by
  have hstep : "Bearer ".toList ++ r = 'B' :: ("earer ".toList ++ r) := rfl
  have htake : ('B' :: ("earer ".toList ++ r)).take 7 = "Bearer ".toList := by
    rw [List.take_succ_cons]
    rw [show (6 : Nat) = ("earer ".toList).length from rfl, List.take_left]
    decide
  have hdrop : ('B' :: ("earer ".toList ++ r)).drop 7 = r := by
    rw [List.drop_succ_cons]
    rw [show (6 : Nat) = ("earer ".toList).length from rfl, List.drop_left]
  rw [hstep, replaceBearer, dif_pos htake, hdrop]

theorem verify_admin_bearer (bs : List (Fin 256)) (toks : List (List Char))
    (h : token_hex bs ∈ toks) :
    verify_admin ("Bearer ".toList ++ token_hex bs) toks = true := by
  rw [verify_admin, replaceBearer_prepend,
    replaceBearer_noB _ (fun c hc => (token_hex_chars bs c hc).1),
    trimWs_noWs _ (fun c hc => (token_hex_chars bs c hc).2), validate]
  simpa using h

/-- C8: two `issue()` calls on distinct random draws return distinct tokens
(hex encoding is injective); `validate` accepts every issued token and
rejects every string never issued; and the boundary `verify_admin` accepts
an issued token presented with the bearer prefix, which it strips before the
exact membership test. -/
theorem C8_token_issue_validate (toks : List (List Char)) (b1 b2 : List (Fin 256))
    (hb : b1 ≠ b2) (s : List Char) (hs : validate s toks = false) :
    (issue b1 toks).1 ≠ (issue b2 (issue b1 toks).2).1
    ∧ validate (issue b1 toks).1 (issue b2 (issue b1 toks).2).2 = true
    ∧ validate (issue b2 (issue b1 toks).2).1 (issue b2 (issue b1 toks).2).2 = true
    ∧ (s ≠ (issue b1 toks).1 → s ≠ (issue b2 (issue b1 toks).2).1 →
        validate s (issue b2 (issue b1 toks).2).2 = false)
    ∧ verify_admin ("Bearer ".toList ++ (issue b1 toks).1)
        (issue b2 (issue b1 toks).2).2 = true := by
  refine ⟨?_, ?_, ?_, ?_, ?_⟩
  · intro h
    simp only [issue] at h
    exact hb (token_hex_inj b1 b2 h)
  · simp [issue, validate]
  · simp [issue, validate]
  · intro h1 h2
    simp only [issue] at h1 h2
    simp only [validate, decide_eq_false_iff_not] at hs ⊢
    simp only [issue, List.mem_cons]
    rintro (hx | hx | hx)
    · exact h2 hx
    · exact h1 hx
    · exact hs hx
  · exact verify_admin_bearer b1 _ (by simp [issue])

theorem C8_witness :
    (issue [0] []).1 ≠ (issue [1] (issue [0] []).2).1 :=
  (C8_token_issue_validate [] [0] [1] (by decide) ['x'] (by decide)).1
